import Mathlib

/-!
Verification of the tike probe-variation and scan-position subsystem.

This file shallowly embeds the functions of `tike/ptycho/probe.py`,
`tike/ptycho/position.py` and their data model into Lean 4 and proves
properties about them.  Machine floats are modelled by exact rationals,
complex64 values by pairs of rationals, and numpy arrays by (nested)
lists.  External numerical collaborators (scipy's least-squares solver,
the trigonometric routines) are modelled as function parameters, since
their outputs only flow through the embedded code opaquely.
-/

namespace Tike

/-- A complex number with rational components, modelling `complex64`. -/
structure CQ where
  re : ℚ
  im : ℚ
deriving DecidableEq, Repr

/-- Complex addition. -/
def CQ.add (x y : CQ) : CQ := ⟨x.re + y.re, x.im + y.im⟩

/-- Complex multiplication. -/
def CQ.mul (x y : CQ) : CQ :=
  ⟨x.re * y.re - x.im * y.im, x.re * y.im + x.im * y.re⟩

/-- Complex conjugate, modelling `np.conj`. -/
def CQ.conj (x : CQ) : CQ := ⟨x.re, -x.im⟩

/-- Scaling of a complex value by a real (weight) value. -/
def CQ.smul (a : ℚ) (x : CQ) : CQ := ⟨a * x.re, a * x.im⟩

/-- The zero complex value. -/
def CQ.zero : CQ := ⟨0, 0⟩

/-- A 2x2 real matrix in row-major order, modelling the small
`np.array` blocks built by `AffineTransform.asarray`. -/
structure M2 where
  a : ℚ
  b : ℚ
  c : ℚ
  d : ℚ
deriving DecidableEq, Repr

/-- Matrix product of 2x2 matrices, modelling numpy `@`. -/
def M2.mul (x y : M2) : M2 :=
  ⟨x.a * y.a + x.b * y.c, x.a * y.b + x.b * y.d,
   x.c * y.a + x.d * y.c, x.c * y.b + x.d * y.d⟩

/-- Row-vector times matrix, modelling `v @ M` for one position row. -/
def M2.applyRow (m : M2) (v : ℚ × ℚ) : ℚ × ℚ :=
  (v.1 * m.a + v.2 * m.c, v.1 * m.b + v.2 * m.d)

/-- `AffineTransform` from `tike/ptycho/position.py`: an immutable record
of translation, scale, rotation angle and shear. -/
structure AffineTransform where
  t0 : ℚ
  t1 : ℚ
  scale0 : ℚ
  scale1 : ℚ
  angle : ℚ
  shear : ℚ
deriving DecidableEq, Repr

/-- The default `AffineTransform()`: zero translation, unit scales, zero
angle and shear. -/
def AffineTransform.id : AffineTransform := ⟨0, 0, 1, 1, 0, 0⟩

/-- `AffineTransform.asarray`: the 2x2 matrix `scale @ rotation @ shear`
built left to right exactly as in the source.  `rcos` and `rsin` are the
cosine and sine routines (`np.cos`, `np.sin`), passed as parameters
because transcendental functions on floats are external collaborators. -/
def AffineTransform.asarray (rcos rsin : ℚ → ℚ) (T : AffineTransform) : M2 :=
  (M2.mk T.scale0 0 0 T.scale1).mul
    ((M2.mk (rcos T.angle) (rsin T.angle) (-(rsin T.angle)) (rcos T.angle)).mul
      (M2.mk 1 0 T.shear 1))

/-- `AffineTransform.__call__` on a single position:
`(x + np.array((t0, t1))) @ self.asarray()`. -/
def AffineTransform.apply (rcos rsin : ℚ → ℚ) (T : AffineTransform)
    (x : ℚ × ℚ) : ℚ × ℚ :=
  (T.asarray rcos rsin).applyRow (x.1 + T.t0, x.2 + T.t1)

/-- `AffineTransform.__call__` on a point set: applied row by row. -/
def AffineTransform.applyAll (rcos rsin : ℚ → ℚ) (T : AffineTransform)
    (xs : List (ℚ × ℚ)) : List (ℚ × ℚ) :=
  xs.map (T.apply rcos rsin)

/-- C9: `asarray()` is the matrix product scale @ rotation @ shear taken
left to right — its entries are the closed form of exactly that product
order — and applying the transform to a point computes
`(x + translation) @ matrix`, expanded entrywise. -/
theorem affine_asarray_apply_closed_form (rcos rsin : ℚ → ℚ)
    (T : AffineTransform) (x : ℚ × ℚ) :
    T.asarray rcos rsin =
      M2.mk (T.scale0 * rcos T.angle + T.scale0 * rsin T.angle * T.shear)
        (T.scale0 * rsin T.angle)
        (-(T.scale1 * rsin T.angle) + T.scale1 * rcos T.angle * T.shear)
        (T.scale1 * rcos T.angle) ∧
    T.apply rcos rsin x =
      ((x.1 + T.t0) * (T.asarray rcos rsin).a +
        (x.2 + T.t1) * (T.asarray rcos rsin).c,
       (x.1 + T.t0) * (T.asarray rcos rsin).b +
        (x.2 + T.t1) * (T.asarray rcos rsin).d) := by
  constructor
  · simp only [AffineTransform.asarray, M2.mul]
    congr 1 <;> ring
  · rfl

/-- The type of the `estimate_global_transformation` collaborator: given
subset positions0, positions1, a (scalar) weights argument and a seed
transform, it returns a fitted transform and its cost.  The source
function wraps `scipy.optimize.least_squares`, an external iterative
numerical solver, so it is modelled as an oracle parameter; every claim
below holds for every oracle. -/
def FitOracle : Type :=
  List (ℚ × ℚ) → List (ℚ × ℚ) → ℚ → AffineTransform → AffineTransform × ℚ

/-- Fancy indexing `xs[subset]` of a position array by an index list. -/
def selectIdx (xs : List (ℚ × ℚ)) (idx : List ℕ) : List (ℚ × ℚ) :=
  idx.map (fun i => xs.getD i (0, 0))

/-- Boolean-mask indexing `xs[inliars]` of a position array. -/
def selectMask (xs : List (ℚ × ℚ)) (mask : List Bool) : List (ℚ × ℚ) :=
  ((xs.zip mask).filter (fun pb => pb.2)).map (fun pb => pb.1)

/-- One pair's test `np.linalg.norm(model(p) - q, axis=-1) <= max_error`,
stated without the square root: for `v ≥ 0`, `Real.sqrt v ≤ e` holds iff
`0 ≤ e ∧ v ≤ e ^ 2`, so the test is exact for every sign of `max_error`. -/
def isInlier (p q : ℚ × ℚ) (maxError : ℚ) : Bool :=
  decide (0 ≤ maxError ∧ (p.1 - q.1) ^ 2 + (p.2 - q.2) ^ 2 ≤ maxError ^ 2)

/-- The number of `True` entries, modelling `np.sum(inliars)`. -/
def countTrue (bs : List Bool) : ℕ := (bs.filter (fun b => b)).length

/-- The inlier mask `position_error <= max_error` over all pairs. -/
def inlierMask (rcos rsin : ℚ → ℚ) (candidate : AffineTransform)
    (pos0 pos1 : List (ℚ × ℚ)) (maxError : ℚ) : List Bool :=
  List.zipWith (fun p q => isInlier (candidate.apply rcos rsin p) q maxError)
    pos0 pos1

/-- Whether one RANSAC iteration reaches consensus: the candidate is
fitted on the subset seeded with the current transform `t`, with the
literal weights `1.0`, and the inlier fraction is compared with
`min_consensus`. -/
def subsetConsensus (fit : FitOracle) (rcos rsin : ℚ → ℚ)
    (pos0 pos1 : List (ℚ × ℚ)) (maxError minConsensus : ℚ)
    (t : AffineTransform) (subset : List ℕ) : Bool :=
  let candidate := (fit (selectIdx pos0 subset) (selectIdx pos1 subset) 1 t).1
  let m := inlierMask rcos rsin candidate pos0 pos1 maxError
  decide (minConsensus ≤ (countTrue m : ℚ) / (m.length : ℚ))

/-- The body of one iteration of the RANSAC loop in
`estimate_global_transformation_ransac`: fit on the subset (weights
`1.0`, seeded with the loop-carried transform), classify inliers, and on
consensus refit on the inliers (weights `1.0` again) and keep the refit
when its fitness improves the best so far.  The best fitness lives in
`WithTop ℚ`, whose `⊤` models the initial `np.inf`. -/
def ransacStep (fit : FitOracle) (rcos rsin : ℚ → ℚ)
    (pos0 pos1 : List (ℚ × ℚ)) (maxError minConsensus : ℚ)
    (state : AffineTransform × WithTop ℚ) (subset : List ℕ) :
    AffineTransform × WithTop ℚ :=
  let candidate := (fit (selectIdx pos0 subset) (selectIdx pos1 subset) 1 state.1).1
  let m := inlierMask rcos rsin candidate pos0 pos1 maxError
  if minConsensus ≤ (countTrue m : ℚ) / (m.length : ℚ) then
    let refit := fit (selectMask pos0 m) (selectMask pos1 m) 1 candidate
    if (refit.2 : WithTop ℚ) < state.2 then (refit.1, (refit.2 : WithTop ℚ))
    else state
  else state

/-- `estimate_global_transformation_ransac`.  The random subsets drawn by
`tike.opt.randomizer.choice` (shape `max_iter × min_sample`) are passed
in as `subsets`; the `weights` parameter of the source function is kept
in the signature and, as in the source, never read. -/
def estimate_global_transformation_ransac (fit : FitOracle)
    (rcos rsin : ℚ → ℚ) (pos0 pos1 : List (ℚ × ℚ))
    (weights : Option (List ℚ)) (transform : AffineTransform)
    (maxError minConsensus : ℚ) (subsets : List (List ℕ)) :
    AffineTransform × WithTop ℚ :=
  subsets.foldl (ransacStep fit rcos rsin pos0 pos1 maxError minConsensus)
    (transform, ⊤)

/-- `PositionOptions` from `tike/ptycho/position.py`.  The momentum
buffer exists only when `use_adaptive_moment` is set, hence the
`Option`. -/
structure PositionOptions where
  initial_scan : List (ℚ × ℚ)
  use_adaptive_moment : Bool
  vdecay : ℚ
  mdecay : ℚ
  use_position_regularization : Bool
  penalty_weight : ℚ
  penalty_variance : ℚ
  transform : AffineTransform
  confidence : List ℚ
  momentum : Option (List (ℚ × ℚ × ℚ × ℚ))
deriving DecidableEq, Repr

/-- Construction of a `PositionOptions`, including `__post_init__`: a
missing confidence defaults to ones, and when `use_adaptive_moment` is
set the momentum buffer `_momentum` is freshly created as zeros. -/
def PositionOptions.make (initial_scan : List (ℚ × ℚ))
    (uam : Bool) (vdecay mdecay : ℚ) (upr : Bool) (pw pv : ℚ)
    (transform : AffineTransform) (confidence : Option (List ℚ)) :
    PositionOptions :=
  { initial_scan := initial_scan
    use_adaptive_moment := uam
    vdecay := vdecay
    mdecay := mdecay
    use_position_regularization := upr
    penalty_weight := pw
    penalty_variance := pv
    transform := transform
    confidence := confidence.getD (List.replicate initial_scan.length 1)
    momentum :=
      if uam then some (List.replicate initial_scan.length (0, 0, 0, 0))
      else none }

/-- `PositionOptions.resample` exactly as written in the source: the
method builds the rescaled options (`initial_scan * factor`, penalty
fields left at their constructor defaults `0` and `1`) in a local
variable, then reaches the end of the body without a return statement,
so the Python call evaluates to `None` — modelled as `none`. -/
def PositionOptions.resample (self : PositionOptions) (factor : ℚ) :
    Option PositionOptions :=
  let new := PositionOptions.make
    (self.initial_scan.map (fun p => (p.1 * factor, p.2 * factor)))
    self.use_adaptive_moment self.vdecay self.mdecay
    self.use_position_regularization 0 1
    self.transform (some self.confidence)
  none

/-- `affine_position_regularization`: runs the RANSAC estimate on
original versus updated positions with `weights=position_options.confidence`,
seeded with the session transform (with `min_consensus` left at its
default `0.75`), and stores the resulting transform back into the
options.  The blending code after the return statement is dead. -/
def affine_position_regularization (fit : FitOracle) (rcos rsin : ℚ → ℚ)
    (original updated : List (ℚ × ℚ)) (options : PositionOptions)
    (maxError : ℚ) (subsets : List (List ℕ)) : PositionOptions :=
  let X := (estimate_global_transformation_ransac fit rcos rsin original
    updated (some options.confidence) options.transform maxError (3 / 4)
    subsets).1
  { options with transform := X }

/-- C4: if no drawn subset reaches consensus, the RANSAC loop never
touches its state, and the input transform is returned unchanged
together with `cost = ⊤` (the model of `np.inf`). -/
theorem ransac_no_consensus_returns_input (fit : FitOracle)
    (rcos rsin : ℚ → ℚ) (pos0 pos1 : List (ℚ × ℚ))
    (weights : Option (List ℚ)) (transform : AffineTransform)
    (maxError minConsensus : ℚ) (subsets : List (List ℕ))
    (h : ∀ s ∈ subsets,
      subsetConsensus fit rcos rsin pos0 pos1 maxError minConsensus
        transform s = false) :
    estimate_global_transformation_ransac fit rcos rsin pos0 pos1 weights
      transform maxError minConsensus subsets = (transform, ⊤) := by
  unfold estimate_global_transformation_ransac
  induction subsets with
  | nil => rfl
  | cons s ss ih =>
    have hs := h s (List.mem_cons_self s ss)
    unfold subsetConsensus at hs
    simp only [decide_eq_false_iff_not] at hs
    have hstep : ransacStep fit rcos rsin pos0 pos1 maxError minConsensus
        (transform, ⊤) s = (transform, ⊤) := by
      unfold ransacStep
      exact if_neg hs
    rw [List.foldl_cons, hstep]
    exact ih (fun x hx => h x (List.mem_cons_of_mem s hx))

/-- C4 witness: a concrete instantiation where the only subset fails
consensus, so the input transform and infinite cost come back. -/
theorem ransac_no_consensus_returns_input_witness :
    (∀ s ∈ [[0]],
      subsetConsensus (fun _ _ _ t => (t, 0)) (fun _ => 1) (fun _ => 0)
        [(0, 0)] [(100, 0)] 1 (1 / 2) AffineTransform.id s = false) ∧
    estimate_global_transformation_ransac (fun _ _ _ t => (t, 0))
      (fun _ => 1) (fun _ => 0) [(0, 0)] [(100, 0)] none
      AffineTransform.id 1 (1 / 2) [[0]] = (AffineTransform.id, ⊤) := by
  have hfail : ∀ s ∈ [[0]],
      subsetConsensus (fun _ _ _ t => (t, 0)) (fun _ => 1) (fun _ => 0)
        [(0, 0)] [(100, 0)] 1 (1 / 2) AffineTransform.id s = false := by
    intro s hs
    simp only [List.mem_singleton] at hs
    subst hs
    simp only [subsetConsensus, inlierMask, isInlier, selectIdx, countTrue,
      AffineTransform.apply, AffineTransform.asarray, AffineTransform.id,
      M2.mul, M2.applyRow, List.map, List.zipWith, List.getD, List.filter,
      List.length, decide_eq_false_iff_not]
    norm_num
  exact ⟨hfail, ransac_no_consensus_returns_input (fun _ _ _ t => (t, 0))
    (fun _ => 1) (fun _ => 0) [(0, 0)] [(100, 0)] none
    AffineTransform.id 1 (1 / 2) [[0]] hfail⟩

/-- C10: the result of `estimate_global_transformation_ransac` does not
depend on its `weights` argument — every subset fit and every consensus
refit passes the literal `1.0` — and consequently the transform stored
by `affine_position_regularization` is the same for any two confidence
arrays. -/
theorem ransac_weights_independent (fit : FitOracle) (rcos rsin : ℚ → ℚ)
    (pos0 pos1 : List (ℚ × ℚ)) (w1 w2 : Option (List ℚ))
    (transform : AffineTransform) (maxError minConsensus : ℚ)
    (subsets : List (List ℕ)) (original updated : List (ℚ × ℚ))
    (options : PositionOptions) (c1 c2 : List ℚ) :
    estimate_global_transformation_ransac fit rcos rsin pos0 pos1 w1
        transform maxError minConsensus subsets =
      estimate_global_transformation_ransac fit rcos rsin pos0 pos1 w2
        transform maxError minConsensus subsets ∧
    (affine_position_regularization fit rcos rsin original updated
        { options with confidence := c1 } maxError subsets).transform =
      (affine_position_regularization fit rcos rsin original updated
        { options with confidence := c2 } maxError subsets).transform := by
  exact ⟨rfl, rfl⟩

/-- C3: `PositionOptions.resample` returns `None` for every input — the
rescaled options are built but never returned, contradicting the
method's own docstring. -/
theorem resample_returns_none (self : PositionOptions) (factor : ℚ) :
    self.resample factor = none := rfl

/-- Componentwise mean of a position list, `np.mean(scan, axis=-2)`. -/
def meanPts (xs : List (ℚ × ℚ)) : ℚ × ℚ :=
  ((xs.map Prod.fst).sum / xs.length, (xs.map Prod.snd).sum / xs.length)

/-- `check_allowed_positions`: `int_scan = scan // 1` takes the floor of
every coordinate, and the `ValueError` fires when any floor is below one
or at least the object extent minus the probe extent on its axis.
Returns `true` exactly when the error is raised. -/
def check_allowed_positions_raises (scan : List (ℚ × ℚ))
    (psiShape probeShape : ℤ × ℤ) : Bool :=
  scan.any (fun p =>
    decide (⌊p.1⌋ < 1 ∨ ⌊p.2⌋ < 1 ∨
      psiShape.1 - probeShape.1 ≤ ⌊p.1⌋ ∨
      psiShape.2 - probeShape.2 ≤ ⌊p.2⌋))

/-- The position-update tail of `update_positions_pd`: apply
`scan = scan - step * grad`, then add back the shift of the center of
mass.  The gradient is produced by the least-squares solve against the
operator's finite differences — an external computation — so it enters
as a parameter. -/
def update_positions_scan (scan grad : List (ℚ × ℚ)) (step : ℚ) :
    List (ℚ × ℚ) :=
  let center0 := meanPts scan
  let scan1 := List.zipWith
    (fun s g => (s.1 - step * g.1, s.2 - step * g.2)) scan grad
  let center1 := meanPts scan1
  scan1.map (fun s =>
    (s.1 + (center0.1 - center1.1), s.2 + (center0.2 - center1.2)))

/-- `update_positions_pd` validates the corrected candidate positions
with `check_allowed_positions`; `true` means the out-of-bounds
`ValueError` is raised. -/
def update_positions_pd_raises (scan grad : List (ℚ × ℚ)) (step : ℚ)
    (psiShape probeShape : ℤ × ℤ) : Bool :=
  check_allowed_positions_raises (update_positions_scan scan grad step)
    psiShape probeShape

/-- C2: evaluating the bounds check at the claim's boundary shows the
code disagreeing with it: a position moved to exactly `margin - 1 = 1`
does not raise (the code only raises when the floor is below 1, although
its own docstring demands positions at least 2), and a position at
exactly `margin = 2` does not raise either. -/
theorem update_positions_pd_margin_one_no_raise :
    update_positions_pd_raises [(1, 1)] [(0, 0)] (5 / 100) (10, 10) (3, 3)
      = false ∧
    update_positions_pd_raises [(2, 2)] [(0, 0)] (5 / 100) (10, 10) (3, 3)
      = false := by
  constructor <;>
    norm_num [update_positions_pd_raises, update_positions_scan,
      check_allowed_positions_raises, meanPts, List.zipWith, List.map,
      List.any, List.sum_cons, List.sum_nil]

/-- Shifting every position by a constant shifts the mean by it. -/
theorem meanPts_map_add (xs : List (ℚ × ℚ)) (c d : ℚ) :
    meanPts (xs.map (fun s => (s.1 + c, s.2 + d))) =
      ((xs.map Prod.fst).sum / xs.length + (xs.length : ℚ) * c / xs.length,
       (xs.map Prod.snd).sum / xs.length + (xs.length : ℚ) * d / xs.length) := by
  unfold meanPts
  simp only [List.map_map, List.length_map]
  have h1 : ∀ ys : List (ℚ × ℚ),
      (ys.map (Prod.fst ∘ fun s => (s.1 + c, s.2 + d))).sum =
        (ys.map Prod.fst).sum + ys.length * c := by
    intro ys
    induction ys with
    | nil => simp
    | cons x t ih => simp [ih]; ring
  have h2 : ∀ ys : List (ℚ × ℚ),
      (ys.map (Prod.snd ∘ fun s => (s.1 + c, s.2 + d))).sum =
        (ys.map Prod.snd).sum + ys.length * d := by
    intro ys
    induction ys with
    | nil => simp
    | cons x t ih => simp [ih]; ring
  rw [h1, h2, add_div, add_div]

/-- C8: the mean of the positions returned by `update_positions_pd`
equals the mean of the input positions, whatever gradient step was
computed — the explicit recentering cancels any drift exactly. -/
theorem update_positions_pd_centroid_invariant (scan grad : List (ℚ × ℚ))
    (step : ℚ) (hlen : grad.length = scan.length) (hne : scan ≠ []) :
    meanPts (update_positions_scan scan grad step) = meanPts scan := by
  unfold update_positions_scan
  have hn : (scan.length : ℚ) ≠ 0 := by
    exact_mod_cast Nat.cast_ne_zero.mpr (List.length_pos.mpr hne).ne'
  have hlen1 : (List.zipWith
      (fun s g => (s.1 - step * g.1, s.2 - step * g.2)) scan grad).length =
      scan.length := by
    rw [List.length_zipWith, hlen, min_self]
  rw [meanPts_map_add, hlen1]
  unfold meanPts
  rw [hlen1]
  refine Prod.ext ?_ ?_ <;> dsimp only <;> field_simp

/-- C8 witness: a concrete two-position scan with a nonzero gradient
step keeps its centroid. -/
theorem update_positions_pd_centroid_invariant_witness :
    ([((1 : ℚ), (0 : ℚ)), (0, 1)].length =
      [((0 : ℚ), (0 : ℚ)), (2, 2)].length) ∧
    [((0 : ℚ), (0 : ℚ)), (2, 2)] ≠ [] ∧
    meanPts (update_positions_scan [(0, 0), (2, 2)] [(1, 0), (0, 1)] (1 / 2))
      = meanPts [(0, 0), (2, 2)] := by
  refine ⟨by decide, by decide, ?_⟩
  exact update_positions_pd_centroid_invariant [(0, 0), (2, 2)]
    [(1, 0), (0, 1)] (1 / 2) (by decide) (by decide)

/-- The result of `get_varying_probe`: the source returns either a plain
copy of the shared probe array (position axis kept at 1) or an array
with one probe per scan position, depending on the `weights` branch. -/
inductive UniqueProbe where
  | copy (probe : List (List CQ))
  | varying (probes : List (List (List CQ)))
deriving DecidableEq, Repr

/-- One eigen component's contribution inside `get_varying_probe`:
`unique_probe[..., :m, :, :] += weights[..., c+1, :m] * eigen_probe[..., c, :m, :, :]`;
only the first `m` shared modes are touched. -/
def addEigenComponent (u : List (List CQ)) (wrow : List ℚ)
    (epc : List (List CQ)) (m : ℕ) : List (List CQ) :=
  u.mapIdx (fun s mode =>
    if s < m then
      List.zipWith CQ.add mode
        ((epc.getD s []).map (CQ.smul (wrow.getD s 0)))
    else mode)

/-- `get_varying_probe` from `tike/ptycho/probe.py`.  With weights, the
base is `weights[..., 0, :] * shared_probe` and each eigen component is
accumulated over its first `m = eigen_probe.shape[-3]` shared modes;
without weights the shared probe is returned as a pure copy. -/
def get_varying_probe (shared : List (List CQ))
    (eigen : Option (List (List (List CQ))))
    (weights : Option (List (List (List ℚ)))) : UniqueProbe :=
  match weights with
  | some w =>
    UniqueProbe.varying (w.map (fun wp =>
      let base := List.zipWith (fun ws mode => mode.map (CQ.smul ws))
        (wp.headD []) shared
      match eigen with
      | some ep =>
        let m := (ep.headD []).length
        (List.range ep.length).foldl
          (fun u c => addEigenComponent u (wp.getD (c + 1) []) (ep.getD c []) m)
          base
      | none => base))
  | none => UniqueProbe.copy shared

/-- Modelled from the spec: the value C1 expects from the reconstruct
operation, "the shared probe broadcast to the N positions".  Stated in
the claim's own words for comparison with `get_varying_probe`. -/
def sharedBroadcastN (N : ℕ) (shared : List (List CQ)) : UniqueProbe :=
  UniqueProbe.varying (List.replicate N shared)

/-- Scaling by the weight `1.0` is the identity on a complex pixel. -/
theorem CQ.one_smul (z : CQ) : CQ.smul 1 z = z := by
  cases z; simp [CQ.smul]

/-- Zipping a constant against a list of matching length maps it. -/
theorem zipWith_replicate_len {α β γ : Type} (f : α → β → γ) (a : α)
    (l : List β) : List.zipWith f (List.replicate l.length a) l = l.map (f a) := by
  induction l with
  | nil => rfl
  | cons x t ih => simp [List.replicate_succ, ih]

/-- C1 counterexample: with `eigen_probe = None` but a weights array
whose zeroth weight is 2, `get_varying_probe` returns twice the shared
probe, not the shared probe broadcast to the positions. -/
theorem get_varying_probe_not_shared_broadcast :
    get_varying_probe [[CQ.mk 1 0]] none (some [[[2]]]) =
      UniqueProbe.varying [[[CQ.mk 2 0]]] ∧
    get_varying_probe [[CQ.mk 1 0]] none (some [[[2]]]) ≠
      sharedBroadcastN 1 [[CQ.mk 1 0]] := by
  have h : get_varying_probe [[CQ.mk 1 0]] none (some [[[2]]]) =
      UniqueProbe.varying [[[CQ.mk 2 0]]] := by
    simp only [get_varying_probe, List.map, List.headD, List.zipWith]
    norm_num [CQ.smul]
  refine ⟨h, ?_⟩
  rw [h]
  simp only [sharedBroadcastN, List.replicate, ne_eq, UniqueProbe.varying.injEq]
  intro hc
  have := List.head_eq_of_cons_eq (List.head_eq_of_cons_eq hc)
  have h2 : (2 : ℚ) = 1 := congrArg CQ.re (List.head_eq_of_cons_eq this)
  norm_num at h2

/-- C1 amended: with `eigen_probe = None`, `get_varying_probe` returns a
pure copy of the shared probe when `weights` is also None (the position
axis stays at its broadcast size of one), and otherwise returns
`weights[..., 0, :] * shared_probe`, which equals the shared probe
broadcast to the N positions exactly when every zeroth weight is one. -/
theorem get_varying_probe_eigen_none (shared : List (List CQ))
    (w : List (List (List ℚ)))
    (h1 : ∀ wp ∈ w, wp.headD [] = List.replicate shared.length 1) :
    get_varying_probe shared none none = UniqueProbe.copy shared ∧
    get_varying_probe shared none (some w) =
      sharedBroadcastN w.length shared := by
  refine ⟨rfl, ?_⟩
  have hun : get_varying_probe shared none (some w) =
      UniqueProbe.varying (w.map (fun wp =>
        List.zipWith (fun ws mode => mode.map (CQ.smul ws)) (wp.headD [])
          shared)) := rfl
  rw [hun]
  unfold sharedBroadcastN
  congr 1
  have hmap : ∀ wp ∈ w,
      List.zipWith (fun ws mode => mode.map (CQ.smul ws)) (wp.headD []) shared
        = shared := by
    intro wp hwp
    rw [h1 wp hwp, zipWith_replicate_len]
    have hsm : CQ.smul (1 : ℚ) = id := funext CQ.one_smul
    simp [hsm]
  calc w.map (fun wp =>
        List.zipWith (fun ws mode => mode.map (CQ.smul ws)) (wp.headD []) shared)
      = w.map (fun _ => shared) := List.map_congr_left hmap
    _ = List.replicate w.length shared := List.map_const' w shared

/-- C1 amended witness: one position with unit zeroth weight recovers
the shared probe broadcast. -/
theorem get_varying_probe_eigen_none_witness :
    (∀ wp ∈ [[[(1 : ℚ)]]], wp.headD [] =
      List.replicate [[CQ.mk 1 0]].length (1 : ℚ)) ∧
    get_varying_probe [[CQ.mk 1 0]] none (some [[[1]]]) =
      sharedBroadcastN 1 [[CQ.mk 1 0]] := by
  refine ⟨by decide, ?_⟩
  exact (get_varying_probe_eigen_none [[CQ.mk 1 0]] [[[1]]] (by decide)).2

/-- `np.mean` over a flat list of reals. -/
def meanQ (xs : List ℚ) : ℚ := xs.sum / xs.length

/-- The mean over the position axis (`axis=-5, keepdims=True`) of a
stack of complex fields: one output pixel per input pixel. -/
def pixelMean (fields : List (List CQ)) : List CQ :=
  (List.range (fields.headD []).length).map (fun px =>
    CQ.mk (meanQ (fields.map (fun f => (f.getD px CQ.zero).re)))
      (meanQ (fields.map (fun f => (f.getD px CQ.zero).im))))

/-- `_get_update` from `tike/ptycho/probe.py`.  The weights are sliced to
`weights[..., batches[batch_index], c, m]` and the eigen probe to
`eigen_probe[..., c-1, m, :, :]`.  `tike.linalg.norm` (not among the
sources) is, per the spec's linear-algebra contract, the L2 norm over the
position axis, so `norm_weights` is the sum of the squared batch weights.
`ValueError` is raised when that squared norm is zero; otherwise the
projection `(Re(conj(R) * eigen) + weights) / norm_weights` is averaged
over the spatial axes and folded back against `R` with a mean over the
position axis. -/
def _get_update (R : List (List CQ)) (eigen : List (List (List CQ)))
    (weights : List (List (List ℚ))) (batches : List (List ℕ))
    (batch_index c m : ℕ) : Except String (List CQ) :=
  let wB := (batches.getD batch_index []).map
    (fun i => ((weights.getD i []).getD c []).getD m 0)
  let ep := (eigen.getD (c - 1) []).getD m []
  let norm_weights := (wB.map (fun x => x ^ 2)).sum
  if norm_weights = 0 then
    Except.error "eigen_probe weights cannot all be zero?"
  else
    let s := List.zipWith
      (fun Ri wi => meanQ (List.zipWith
        (fun r e => ((r.conj.mul e).re + wi) / norm_weights) Ri ep))
      R wB
    Except.ok (pixelMean (List.zipWith (fun Ri si => Ri.map (CQ.smul si)) R s))

/-- Whether an embedded fallible routine raised `ValueError`. -/
def raisesValueError {α : Type} (e : Except String α) : Bool :=
  match e with
  | Except.error _ => true
  | Except.ok _ => false

/-- A sum of squares of rationals vanishes only if every term does. -/
theorem sum_sq_eq_zero_iff (l : List ℚ) :
    (l.map (fun x => x ^ 2)).sum = 0 ↔ ∀ x ∈ l, x = 0 := by
  induction l with
  | nil => simp
  | cons a t ih =>
    simp only [List.map_cons, List.sum_cons, List.mem_cons]
    constructor
    · intro h
      have ha : a ^ 2 = 0 ∧ (t.map (fun x => x ^ 2)).sum = 0 := by
        constructor
        · nlinarith [sq_nonneg a, List.sum_nonneg (l := t.map (fun x => x ^ 2))
            (by intro y hy; obtain ⟨x, _, rfl⟩ := List.mem_map.mp hy
                exact sq_nonneg x)]
        · nlinarith [sq_nonneg a, List.sum_nonneg (l := t.map (fun x => x ^ 2))
            (by intro y hy; obtain ⟨x, _, rfl⟩ := List.mem_map.mp hy
                exact sq_nonneg x)]
      rintro x (rfl | hx)
      · exact pow_eq_zero_iff (n := 2) (by norm_num) |>.mp ha.1
      · exact (ih.mp ha.2) x hx
    · intro h
      have ha : a = 0 := h a (Or.inl rfl)
      have ht : (t.map (fun x => x ^ 2)).sum = 0 :=
        ih.mpr (fun x hx => h x (Or.inr hx))
      simp [ha, ht]

/-- C7: `_get_update` raises `ValueError` precisely when every relevant
weight — the weights of the selected batch's positions at the updated
eigen index and mode — is exactly zero; with any nonzero relevant weight
it returns an update without error. -/
theorem get_update_error_iff_zero_weights (R : List (List CQ))
    (eigen : List (List (List CQ))) (weights : List (List (List ℚ)))
    (batches : List (List ℕ)) (batch_index c m : ℕ) :
    raisesValueError (_get_update R eigen weights batches batch_index c m)
      = true ↔
    ∀ i ∈ batches.getD batch_index [],
      ((weights.getD i []).getD c []).getD m 0 = 0 := by
  unfold _get_update
  by_cases h : ((((batches.getD batch_index []).map
      (fun i => ((weights.getD i []).getD c []).getD m 0)).map
      (fun x => x ^ 2)).sum = 0)
  · simp only [h, reduceIte, raisesValueError, true_iff]
    intro i hi
    exact (sum_sq_eq_zero_iff _).mp h _ (List.mem_map_of_mem _ hi)
  · simp only [raisesValueError, h, reduceIte, Bool.false_eq_true, false_iff]
    intro hall
    exact h ((sum_sq_eq_zero_iff _).mpr (by
      intro x hx
      obtain ⟨i, hi, rfl⟩ := List.mem_map.mp hx
      exact hall i hi))

/-- `np.percentile(xs, 95)` with the default linear interpolation: with
`s` the ascending sort of the data and `h = 0.95 * (n - 1)`, the value
is `s[⌊h⌋] + (h - ⌊h⌋) * (s[⌊h⌋+1] - s[⌊h⌋])`.  When `h` is exactly the
last index the interpolation weight is zero, so the out-of-range
neighbour defaults harmlessly to `s[⌊h⌋]`. -/
def percentile95 (xs : List ℚ) : ℚ :=
  let s := xs.mergeSort (fun a b => decide (a ≤ b))
  let h : ℚ := 95 / 100 * ((xs.length : ℚ) - 1)
  let k : ℕ := (⌊h⌋).toNat
  s.getD k 0 + (h - (k : ℚ)) * (s.getD (k + 1) (s.getD k 0) - s.getD k 0)

/-- `np.sign` on a real value. -/
def signQ (x : ℚ) : ℚ := if x < 0 then -1 else if x = 0 then 0 else 1

/-- The magnitudes of one weight column along the position axis: the
data `np.percentile(..., axis=[-3])` reduces for eigen index `e` and
mode `m`. -/
def absColumn (w : List (List (List ℚ))) (e m : ℕ) : List ℚ :=
  w.map (fun wp => |((wp.getD e []).getD m 0)|)

/-- The outlier-removal step of `_constrain_variable_probe2`:
`weights = minimum(|weights|, 1.5 * percentile(|weights|, 95, axis=-3)) * sign(weights)`,
elementwise over positions, eigen indices and modes. -/
def clip_weights (w : List (List (List ℚ))) : List (List (List ℚ)) :=
  w.map (fun wp => wp.mapIdx (fun e row => row.mapIdx (fun m x =>
    min |x| (3 / 2 * percentile95 (absColumn w e m)) * signQ x)))

/-- Index into a weights array, with numpy-free defaults: `w[p, e, m]`. -/
def valueAt (w : List (List (List ℚ))) (p e m : ℕ) : ℚ :=
  ((w.getD p []).getD e []).getD m 0

/-- `getD` after `map`, inside bounds. -/
theorem getD_map_of_lt {α β : Type} (f : α → β) (l : List α) (i : ℕ)
    (d : β) (da : α) (h : i < l.length) :
    (l.map f).getD i d = f (l.getD i da) := by
  rw [List.getD_eq_getElem?_getD, List.getD_eq_getElem?_getD,
    List.getElem?_eq_getElem (by simpa using h),
    List.getElem?_eq_getElem h]
  simp

/-- `getD` after `mapIdx`, inside bounds. -/
theorem getD_mapIdx_of_lt {α β : Type} (f : ℕ → α → β) (l : List α)
    (i : ℕ) (d : β) (da : α) (h : i < l.length) :
    (l.mapIdx f).getD i d = f i (l.getD i da) := by
  rw [List.getD_eq_getElem?_getD, List.getD_eq_getElem?_getD,
    List.getElem?_eq_getElem (by simpa using h),
    List.getElem?_eq_getElem h]
  simp [List.getElem_mapIdx]

/-- `getD` of a list of nonnegative values with a nonnegative default. -/
theorem getD_nonneg (l : List ℚ) (i : ℕ) (d : ℚ)
    (hl : ∀ x ∈ l, 0 ≤ x) (hd : 0 ≤ d) : 0 ≤ l.getD i d := by
  rw [List.getD_eq_getElem?_getD]
  cases hio : l[i]? with
  | none => simpa using hd
  | some x => simpa using hl x (List.getElem?_mem hio)

/-- The 95th percentile of a nonempty list of nonnegative values is
nonnegative: it interpolates between two order statistics. -/
theorem percentile95_nonneg (xs : List ℚ) (hne : xs ≠ [])
    (hpos : ∀ x ∈ xs, 0 ≤ x) : 0 ≤ percentile95 xs := by
  simp only [percentile95]
  have hmem : ∀ x ∈ xs.mergeSort (fun a b => decide (a ≤ b)), 0 ≤ x := by
    intro x hx
    exact hpos x ((List.mergeSort_perm xs _).mem_iff.mp hx)
  have hn : 1 ≤ (xs.length : ℚ) := by
    have := List.length_pos.mpr hne
    exact_mod_cast this
  set h : ℚ := 95 / 100 * ((xs.length : ℚ) - 1) with hh
  have hh0 : 0 ≤ h := by
    rw [hh]
    have : (0 : ℚ) ≤ (xs.length : ℚ) - 1 := by linarith
    positivity
  have hfloor : (0 : ℤ) ≤ ⌊h⌋ := Int.floor_nonneg.mpr hh0
  have hk : (((⌊h⌋).toNat : ℕ) : ℚ) = ((⌊h⌋ : ℤ) : ℚ) := by
    exact_mod_cast congrArg Int.cast (Int.toNat_of_nonneg hfloor)
  have hg0 : 0 ≤ h - (((⌊h⌋).toNat : ℕ) : ℚ) := by
    rw [hk]; linarith [Int.floor_le h]
  have hg1 : h - (((⌊h⌋).toNat : ℕ) : ℚ) ≤ 1 := by
    rw [hk]; linarith [Int.lt_floor_add_one h]
  have hA : 0 ≤ (xs.mergeSort (fun a b => decide (a ≤ b))).getD
      ((⌊h⌋).toNat) 0 := getD_nonneg _ _ _ hmem le_rfl
  have hB : 0 ≤ (xs.mergeSort (fun a b => decide (a ≤ b))).getD
      ((⌊h⌋).toNat + 1)
      ((xs.mergeSort (fun a b => decide (a ≤ b))).getD ((⌊h⌋).toNat) 0) :=
    getD_nonneg _ _ _ hmem hA
  nlinarith [mul_nonneg hg0 hB, mul_nonneg (by linarith :
    (0 : ℚ) ≤ 1 - (h - (((⌊h⌋).toNat : ℕ) : ℚ))) hA]

/-- C5: after the outlier-removal step of the constrain pass, each
weight equals `sign(w) * min(|w|, 1.5 * percentile95(|w|))` computed
over its position-axis column, so in particular its magnitude is at most
1.5 times the column's 95th-percentile magnitude. -/
theorem constrain_weights_outlier_clip (w : List (List (List ℚ)))
    (p e m : ℕ) (hp : p < w.length) (he : e < (w.getD p []).length)
    (hm : m < ((w.getD p []).getD e []).length) :
    valueAt (clip_weights w) p e m =
      signQ (valueAt w p e m) *
        min |valueAt w p e m| (3 / 2 * percentile95 (absColumn w e m)) ∧
    |valueAt (clip_weights w) p e m| ≤
      3 / 2 * percentile95 (absColumn w e m) := by
  set x := valueAt w p e m with hx
  set c := 3 / 2 * percentile95 (absColumn w e m) with hc
  have h1 : valueAt (clip_weights w) p e m = min |x| c * signQ x := by
    unfold valueAt clip_weights
    rw [getD_map_of_lt _ w p [] [] hp,
      getD_mapIdx_of_lt _ _ e [] [] he,
      getD_mapIdx_of_lt _ _ m 0 0 hm]
    rfl
  have hwne : w ≠ [] :=
    List.length_pos.mp (Nat.lt_of_le_of_lt (Nat.zero_le p) hp)
  have hcolne : absColumn w e m ≠ [] := by
    unfold absColumn
    simpa using hwne
  have hcolpos : ∀ y ∈ absColumn w e m, 0 ≤ y := by
    intro y hy
    obtain ⟨wp, _, rfl⟩ := List.mem_map.mp hy
    exact abs_nonneg _
  have hc0 : 0 ≤ c := by
    rw [hc]
    have := percentile95_nonneg (absColumn w e m) hcolne hcolpos
    linarith
  have hmin0 : 0 ≤ min |x| c := le_min (abs_nonneg x) hc0
  have hsign : |signQ x| ≤ 1 := by
    unfold signQ
    split_ifs <;> simp
  refine ⟨by rw [h1, mul_comm], ?_⟩
  calc |valueAt (clip_weights w) p e m|
      = min |x| c * |signQ x| := by rw [h1, abs_mul, abs_of_nonneg hmin0]
    _ ≤ min |x| c * 1 := mul_le_mul_of_nonneg_left hsign hmin0
    _ = min |x| c := mul_one _
    _ ≤ c := min_le_right _ _

/-- C5 witness: a one-position weights array is returned with its single
weight clipped against its own 95th percentile. -/
theorem constrain_weights_outlier_clip_witness :
    ((0 : ℕ) < [[[(4 : ℚ)]]].length ∧
      (0 : ℕ) < ([[[(4 : ℚ)]]].getD 0 []).length ∧
      (0 : ℕ) < (([[[(4 : ℚ)]]].getD 0 []).getD 0 []).length) ∧
    (valueAt (clip_weights [[[(4 : ℚ)]]]) 0 0 0 =
      signQ (valueAt [[[(4 : ℚ)]]] 0 0 0) *
        min |valueAt [[[(4 : ℚ)]]] 0 0 0|
          (3 / 2 * percentile95 (absColumn [[[(4 : ℚ)]]] 0 0)) ∧
     |valueAt (clip_weights [[[(4 : ℚ)]]]) 0 0 0| ≤
      3 / 2 * percentile95 (absColumn [[[(4 : ℚ)]]] 0 0)) := by
  exact ⟨⟨by decide, by decide, by decide⟩,
    constrain_weights_outlier_clip [[[(4 : ℚ)]]] 0 0 0 (by decide) (by decide)
      (by decide)⟩

/-- Modelled from the spec: `tike.linalg.norm` is not among the sources;
per the spec's linear-algebra contract, the per-mode power
`norm(weights[..., 1:, :pwm], keepdims=True, axis=-3) ** 2` holds, for
each eigen slot `e` and submode `i`, the sum over the position axis of
the squared weights. -/
def powerOf (w : List (List (List ℚ))) (pwm : ℕ) : List (List ℚ) :=
  (List.range ((w.headD []).length - 1)).map (fun e =>
    (List.range pwm).map (fun i =>
      (w.map (fun wp => ((wp.getD (1 + e) []).getD i 0) ^ 2)).sum))

/-- `power[..., i].flatten()`: the power column at submode `i` across
the eigen slots. -/
def powerColumn (power : List (List ℚ)) (i : ℕ) : List ℚ :=
  power.map (fun row => row.getD i 0)

/-- Modelled from the spec: `comm.pool.allreduce` (the communicator is
not among the sources) reduces the per-device power arrays elementwise
by sum across all devices — its call site reads "reduce power by sum
across all devices". -/
def allreducePower (ps : List (List (List ℚ))) : List (List ℚ) :=
  match ps with
  | [] => []
  | q :: qs =>
    qs.foldl (fun acc r => List.zipWith (List.zipWith (fun a b => a + b)) acc r) q

/-- The guarantee numpy gives for `sorted = np.argsort(-power[..., i].flatten())`
under the default quicksort kind: the result is a permutation of
`range n` along which the keys are non-increasing.  The default kind is
not the stable one, so the order among tied keys is unspecified; the
permutation the call produces is therefore an explicit value constrained
only by this predicate. -/
def isArgsortDesc (keys : List ℚ) (perm : List ℕ) : Prop :=
  perm.Perm (List.range keys.length) ∧
    List.Sorted (fun a b => b ≤ a) (perm.map (fun j => keys.getD j 0))

/-- The weight reordering of `_constrain_variable_probe2`: for each
submode `i` below `probes_with_modes`, `weights[..., 1:, i] =
weights[..., 1 + sorted_i, i]`; eigen slot 0 and submodes without
variation are untouched. -/
def sortWeights (w : List (List (List ℚ))) (perms : List (List ℕ))
    (pwm : ℕ) : List (List (List ℚ)) :=
  w.map (fun wp => wp.mapIdx (fun e row =>
    if e = 0 then row
    else row.mapIdx (fun i x =>
      if i < pwm then
        ((wp.getD (1 + (perms.getD i []).getD (e - 1) 0) []).getD i 0)
      else x)))

/-- The probe reordering of `_constrain_variable_probe2`:
`variable_probe[..., :, i, :, :] = variable_probe[..., sorted_i, i, :, :]`
for every submode `i` of the probe's submode axis. -/
def sortProbe (probe : List (List (List CQ))) (perms : List (List ℕ)) :
    List (List (List CQ)) :=
  probe.mapIdx (fun e modes => modes.mapIdx (fun i _px =>
    (probe.getD ((perms.getD i []).getD e 0) []).getD i []))

/-- `_constrain_variable_probe2`: sort the eigen slots of both the
variable probe and the weights along the argsort permutations of the
(already reduced) power, then remove weight outliers.
`probes_with_modes = variable_probe.shape[-3]`. -/
def _constrain_variable_probe2 (probe : List (List (List CQ)))
    (w : List (List (List ℚ))) (perms : List (List ℕ)) :
    List (List (List CQ)) × List (List (List ℚ)) :=
  (sortProbe probe perms,
   clip_weights (sortWeights w perms ((probe.headD []).length)))

/-- The phase-2 wiring of `constrain_variable_probe`: every device's
power is computed from its weight shard, the powers are allreduced by
sum, and each device applies `_constrain_variable_probe2` with the
argsort permutations of the shared reduced power (`np.argsort` is
deterministic, so all devices see the same permutations). -/
def constrain_sort_pass
    (devices : List (List (List (List CQ)) × List (List (List ℚ))))
    (perms : List (List ℕ)) :
    List (List (List (List CQ)) × List (List (List ℚ))) :=
  devices.map (fun d => _constrain_variable_probe2 d.1 d.2 perms)

/-- The reduced power of a device pool, feeding the phase-2 argsorts. -/
def globalPower
    (devices : List (List (List (List CQ)) × List (List (List ℚ)))) :
    List (List ℚ) :=
  allreducePower (devices.map (fun d => powerOf d.2 ((d.1.headD []).length)))

/-- C6 counterexample: the claim's stable-tie guarantee fails.  With two
eigen slots of equal reduced power, the permutation `[1, 0]` satisfies
everything `np.argsort` (default, unstable kind) guarantees, yet applying
it swaps the tied slots instead of keeping their original order. -/
theorem argsort_tie_not_stable :
    isArgsortDesc
      (powerColumn (allreducePower [powerOf [[[(0 : ℚ)], [1], [1]]] 1]) 0)
      [1, 0] ∧
    sortProbe [[[CQ.mk 1 0]], [[CQ.mk 2 0]]] [[1, 0]] ≠
      [[[CQ.mk 1 0]], [[CQ.mk 2 0]]] := by
  have hcol : powerColumn (allreducePower [powerOf [[[(0 : ℚ)], [1], [1]]] 1]) 0
      = [1, 1] := by
    norm_num [powerOf, powerColumn, allreducePower, List.range_succ]
  rw [hcol]
  exact ⟨by constructor <;> decide, by decide⟩

/-- C6 amended: each device's phase 2 reorders the eigen slots of the
variable probe and of the weights by one and the same argsort
permutation of the power summed across all devices, along which that
power is non-increasing; the tie order is whatever the (unstable)
argsort produced. -/
theorem constrain_sort_aligned_descending
    (devices : List (List (List (List CQ)) × List (List (List ℚ))))
    (perms : List (List ℕ)) (probe : List (List (List CQ)))
    (w : List (List (List ℚ))) (hdev : (probe, w) ∈ devices) (i : ℕ)
    (hperm : isArgsortDesc (powerColumn (globalPower devices) i)
      (perms.getD i []))
    (e p e2 : ℕ) (he : e < probe.length) (hi : i < (probe.getD e []).length)
    (hp : p < w.length) (he2 : 1 + e2 < (w.getD p []).length)
    (hi2 : i < ((w.getD p []).getD (1 + e2) []).length)
    (hipwm : i < (probe.headD []).length) :
    _constrain_variable_probe2 probe w perms ∈
      constrain_sort_pass devices perms ∧
    ((_constrain_variable_probe2 probe w perms).1.getD e []).getD i [] =
      (probe.getD ((perms.getD i []).getD e 0) []).getD i [] ∧
    (_constrain_variable_probe2 probe w perms).2 =
      clip_weights (sortWeights w perms ((probe.headD []).length)) ∧
    valueAt (sortWeights w perms ((probe.headD []).length)) p (1 + e2) i =
      valueAt w p (1 + ((perms.getD i []).getD e2 0)) i ∧
    List.Sorted (fun a b => b ≤ a) ((perms.getD i []).map
      (fun j => (powerColumn (globalPower devices) i).getD j 0)) := by
  refine ⟨?_, ?_, rfl, ?_, hperm.2⟩
  · exact List.mem_map_of_mem (fun d => _constrain_variable_probe2 d.1 d.2 perms)
      hdev
  · show ((sortProbe probe perms).getD e []).getD i [] = _
    unfold sortProbe
    rw [getD_mapIdx_of_lt _ _ e [] [] he, getD_mapIdx_of_lt _ _ i [] [] hi]
  · unfold valueAt sortWeights
    rw [getD_map_of_lt _ w p [] [] hp,
      getD_mapIdx_of_lt _ _ (1 + e2) [] [] he2]
    rw [if_neg (by omega : ¬(1 + e2 = 0))]
    rw [getD_mapIdx_of_lt _ _ i 0 0 hi2]
    rw [if_pos hipwm]
    simp

/-- C6 amended witness: one device, one submode, two eigen slots with
distinct powers 1 and 4; the valid argsort is `[1, 0]` and both arrays
are reordered by it. -/
theorem constrain_sort_aligned_descending_witness :
    ((([[[CQ.mk 1 0]], [[CQ.mk 2 0]]],
        [[[(0 : ℚ)], [1], [2]]]) ∈
      [(([[[CQ.mk 1 0]], [[CQ.mk 2 0]]]),
        [[[(0 : ℚ)], [1], [2]]])]) ∧
      isArgsortDesc
        (powerColumn (globalPower
          [(([[[CQ.mk 1 0]], [[CQ.mk 2 0]]]), [[[(0 : ℚ)], [1], [2]]])]) 0)
        ([[1, 0]].getD 0 [])) ∧
    (((_constrain_variable_probe2 [[[CQ.mk 1 0]], [[CQ.mk 2 0]]]
        [[[(0 : ℚ)], [1], [2]]] [[1, 0]]).1.getD 0 []).getD 0 [] =
      ([[[CQ.mk 1 0]], [[CQ.mk 2 0]]].getD
        (([[1, 0]].getD 0 []).getD 0 0) []).getD 0 [] ∧
     valueAt (sortWeights [[[(0 : ℚ)], [1], [2]]] [[1, 0]] 1) 0 1 0 =
      valueAt [[[(0 : ℚ)], [1], [2]]] 0
        (1 + (([[1, 0]].getD 0 []).getD 0 0)) 0) := by
  have hperm : isArgsortDesc
      (powerColumn (globalPower
        [(([[[CQ.mk 1 0]], [[CQ.mk 2 0]]]), [[[(0 : ℚ)], [1], [2]]])]) 0)
      ([[1, 0]].getD 0 []) := by
    have hcol : powerColumn (globalPower
        [(([[[CQ.mk 1 0]], [[CQ.mk 2 0]]]), [[[(0 : ℚ)], [1], [2]]])]) 0
        = [1, 4] := by
      norm_num [globalPower, powerOf, powerColumn, allreducePower,
        List.range_succ]
    rw [hcol]
    constructor <;> decide
  have hmain := constrain_sort_aligned_descending
    [(([[[CQ.mk 1 0]], [[CQ.mk 2 0]]]), [[[(0 : ℚ)], [1], [2]]])]
    [[1, 0]] [[[CQ.mk 1 0]], [[CQ.mk 2 0]]] [[[(0 : ℚ)], [1], [2]]]
    (by simp) 0 hperm 0 0 0 (by decide) (by decide) (by decide) (by decide)
    (by decide) (by decide)
  exact ⟨⟨by simp, hperm⟩, hmain.2.1, hmain.2.2.2.1⟩

end Tike
